import Mathlib

/-!
# Verification of the disjoint-set (union-find) contract of
# `Source/projects/ImageProcessing/connectedComponents.cpp`

The repository's visible source is the unit test `createdataset::test_Set`,
which exercises a generic `Set<T>` disjoint-set structure through
construction, `find()` and `Set<T>::unite(a, b)`.  The implementation of
`Set<T>` itself (declared in `connectedComponents.h`) is not part of the
visible source, so the structure is modelled here from the specification:
a forest of elements, each holding a parent reference, where the
representative of a set is the fixed point reached by following parent
references, a fresh element is its own parent, and `unite` redirects the
root of one set to the root of the other.

Elements are modelled as natural-number handles into an arena (the
specification itself recommends exactly this arena-of-indices view for
reimplementations); the parent links form a total function `Nat → Nat`.
A freshly constructed, never-united element is one whose handle is not
mentioned by any `unite` performed so far; in the initial arena every
element is its own parent (a singleton), matching `Set<T>`'s constructor.

The merge direction of `unite` is an implementation choice per the
specification ("which representative survives is an implementation
choice"); the model lets the smaller-index root survive, which also keeps
every parent link non-increasing and hence every parent chain finite.
`find` is modelled both as the pure representative query `DSU.find` and as
the path-compressing variant `DSU.findC` the specification describes,
which additionally repoints the visited elements to the discovered root.
-/

namespace ConnectedComponents

/-- Modelled from the spec: the state of the `Set<T>` forest, missing from
the visible source.  `parent i` is the parent reference of element `i`;
an element whose parent is itself is a set representative. -/
structure DSU where
  parent : Nat → Nat

/-- The forest invariant of the model: every parent reference is
non-increasing, so every parent chain reaches its fixed point.  It holds
for the initial arena and is preserved by `unite` and by path
compression. -/
def DSU.Wf (d : DSU) : Prop := ∀ i, d.parent i ≤ i

/-- Modelled from the spec: construction.  Every element of the initial
arena is its own parent, i.e. the sole member of a singleton set, as a
freshly constructed `Set<T>` is. -/
def initD : DSU := ⟨fun i => i⟩

/-- Follow parent references to the fixed point, with explicit fuel.
Under the forest invariant, fuel `i + 1` always suffices from element
`i`. -/
def findAux (p : Nat → Nat) : Nat → Nat → Nat
  | 0, i => i
  | fuel + 1, i => if p i = i then i else findAux p fuel (p i)

/-- Follow parent references from `i` to the fixed point. -/
def findP (p : Nat → Nat) (i : Nat) : Nat :=
  findAux p (i + 1) i

/-- Modelled from the spec: `find()`.  Returns the canonical
representative of the set containing `i`: the element reached from `i` by
following parent references to a fixed point. -/
def DSU.find (d : DSU) (i : Nat) : Nat :=
  findP d.parent i

/-- Redirect the parent reference of `j` to `v`, leaving every other
element untouched. -/
def updateP (p : Nat → Nat) (j v : Nat) : Nat → Nat :=
  fun k => if k = j then v else p k

/-- Modelled from the spec: `Set<T>::unite(a, b)`.  Finds the two
representatives; if they already coincide the structure is unchanged,
otherwise the parent reference of one root is redirected to the other
root, merging the two sets.  The surviving representative is the
smaller-index root (merge direction is an implementation choice per the
specification). -/
def DSU.unite (d : DSU) (a b : Nat) : DSU :=
  let ra := d.find a
  let rb := d.find b
  if ra = rb then d
  else if ra < rb then ⟨updateP d.parent rb ra⟩
  else ⟨updateP d.parent ra rb⟩

/-- Modelled from the spec: `find()` with path compression.  Follows
parent references to the root and repoints every visited element directly
to the discovered root; returns the root together with the compressed
forest. -/
def findCAux (p : Nat → Nat) : Nat → Nat → Nat × (Nat → Nat)
  | 0, i => (i, p)
  | fuel + 1, i =>
    if p i = i then (i, p)
    else
      ((findCAux p fuel (p i)).1,
        updateP (findCAux p fuel (p i)).2 i (findCAux p fuel (p i)).1)

/-- The path-compressing `find()` on the forest state: the representative
of `i` together with the compressed forest. -/
def DSU.findC (d : DSU) (i : Nat) : Nat × DSU :=
  ((findCAux d.parent (i + 1) i).1, ⟨(findCAux d.parent (i + 1) i).2⟩)

/-- Apply a sequence of `unite` calls to the initial arena. -/
def applyOps (ops : List (Nat × Nat)) : DSU :=
  ops.foldl (fun d q => d.unite q.1 q.2) initD

/-- `mentions ops x` holds when element `x` appears as an argument of some
`unite` in the sequence `ops`; a fresh element is one not mentioned. -/
def mentions (ops : List (Nat × Nat)) (x : Nat) : Bool :=
  ops.any (fun q => q.1 = x || q.2 = x)

/-- Embedding of `createdataset::test_Set` from
`connectedComponents.cpp` lines 12-34.  The four stack objects
`s1, s2, s3, s4` are the four fresh elements `0, 1, 2, 3` of the initial
arena; each `throw std::exception("Internal error in Set.")` becomes an
`Except.error`. -/
def test_Set : Except String Unit :=
  let d0 := initD
  if d0.find 0 = d0.find 1 then Except.error "Internal error in Set."
  else
    let d1 := d0.unite 0 1
    if d1.find 0 ≠ d1.find 1 then Except.error "Internal error in Set."
    else
      let d2 := d1.unite 1 2
      if d2.find 1 ≠ d2.find 0 ∨ d2.find 2 ≠ d2.find 1 then
        Except.error "Internal error in Set."
      else
        let d3 := d2.unite 3 2
        if d3.find 3 ≠ d3.find 2 ∨ d3.find 2 ≠ d3.find 0 ∨ d3.find 2 ≠ d3.find 1 then
          Except.error "Internal error in Set."
        else Except.ok ()

/-! ## Basic lemmas about `findAux` and `findP` -/

theorem findAux_le (p : Nat → Nat) (hp : ∀ j, p j ≤ j) :
    ∀ fuel i, findAux p fuel i ≤ i := by
  intro fuel
  induction fuel with
  | zero => intro i; simp [findAux]
  | succ f ih =>
    intro i
    simp only [findAux]
    by_cases hpi : p i = i
    · simp [hpi]
    · rw [if_neg hpi]
      exact le_trans (ih (p i)) (hp i)

theorem findAux_root (p : Nat → Nat) (hp : ∀ j, p j ≤ j) :
    ∀ fuel i, i < fuel → p (findAux p fuel i) = findAux p fuel i := by
  intro fuel
  induction fuel with
  | zero => intro i h; omega
  | succ f ih =>
    intro i h
    simp only [findAux]
    by_cases hpi : p i = i
    · simp [hpi]
    · rw [if_neg hpi]
      have := hp i
      exact ih (p i) (by omega)

theorem findAux_fuel (p : Nat → Nat) (hp : ∀ j, p j ≤ j) :
    ∀ fuel fuel' i, i < fuel → i < fuel' →
      findAux p fuel i = findAux p fuel' i := by
  intro fuel
  induction fuel with
  | zero => intro fuel' i h; omega
  | succ f ih =>
    intro fuel' i h h'
    cases fuel' with
    | zero => omega
    | succ f' =>
      simp only [findAux]
      by_cases hpi : p i = i
      · simp [hpi]
      · rw [if_neg hpi, if_neg hpi]
        have := hp i
        exact ih f' (p i) (by omega) (by omega)

theorem findP_le (p : Nat → Nat) (hp : ∀ j, p j ≤ j) (i : Nat) :
    findP p i ≤ i :=
  findAux_le p hp (i + 1) i

theorem parent_findP (p : Nat → Nat) (hp : ∀ j, p j ≤ j) (i : Nat) :
    p (findP p i) = findP p i :=
  findAux_root p hp (i + 1) i (Nat.lt_succ_self i)

theorem findP_of_root (p : Nat → Nat) (i : Nat) (hr : p i = i) :
    findP p i = i := by
  simp [findP, findAux, hr]

theorem findP_parent (p : Nat → Nat) (hp : ∀ j, p j ≤ j) (i : Nat) :
    findP p (p i) = findP p i := by
  by_cases hpi : p i = i
  · rw [hpi]
  · have hlt : p i < i := Nat.lt_of_le_of_ne (hp i) hpi
    have h1 : findP p i = findAux p i (p i) := by
      simp only [findP, findAux, if_neg hpi]
    rw [h1]
    exact findAux_fuel p hp (p i + 1) i (p i) (Nat.lt_succ_self _) hlt

theorem findP_findP (p : Nat → Nat) (hp : ∀ j, p j ≤ j) (i : Nat) :
    findP p (findP p i) = findP p i :=
  findP_of_root p (findP p i) (parent_findP p hp i)

/-! ## Lemmas about redirecting a single parent reference -/

theorem updateP_le (p : Nat → Nat) (hp : ∀ j, p j ≤ j) (jr v : Nat)
    (hvj : v ≤ jr) : ∀ j, updateP p jr v j ≤ j := by
  intro j
  by_cases hj : j = jr
  · subst hj; simp [updateP, hvj]
  · simp [updateP, hj, hp j]

/-- Redirecting the parent of the root `jr` to another root `v < jr`
remaps every element of `jr`'s set to the representative `v` and leaves
every other representative unchanged. -/
theorem findP_update_root (p : Nat → Nat) (hp : ∀ j, p j ≤ j) (jr v : Nat)
    (hj : p jr = jr) (hv : p v = v) (hvj : v < jr) :
    ∀ k, findP (updateP p jr v) k = if findP p k = jr then v else findP p k := by
  have hp' : ∀ j, updateP p jr v j ≤ j := updateP_le p hp jr v (le_of_lt hvj)
  intro k
  induction k using Nat.strong_induction_on with
  | _ k ih =>
    by_cases hkj : k = jr
    · rw [hkj]
      have h1 : updateP p jr v jr = v := by simp [updateP]
      have h2 := findP_parent (updateP p jr v) hp' jr
      rw [h1] at h2
      have h3 : updateP p jr v v = v := by
        simp [updateP, Nat.ne_of_lt hvj, hv]
      have h4 : findP (updateP p jr v) v = v := findP_of_root _ _ h3
      have h5 : findP p jr = jr := findP_of_root _ _ hj
      rw [← h2, h4, h5, if_pos rfl]
    · have hk : updateP p jr v k = p k := by simp [updateP, hkj]
      by_cases hroot : p k = k
      · have e1 : findP p k = k := findP_of_root _ _ hroot
        have e2 : findP (updateP p jr v) k = k :=
          findP_of_root _ _ (by rw [hk, hroot])
        rw [e1, e2, if_neg hkj]
      · have hlt : p k < k := Nat.lt_of_le_of_ne (hp k) hroot
        have e1 : findP (updateP p jr v) k = findP (updateP p jr v) (p k) := by
          conv_lhs => rw [← findP_parent _ hp' k, hk]
        have e2 : findP p k = findP p (p k) := (findP_parent _ hp k).symm
        rw [e1, e2, ih (p k) hlt]

/-- Repointing any element `j` directly to its own representative leaves
every element's representative unchanged: this is the path-compression
shortcut. -/
theorem findP_update_shortcut (p : Nat → Nat) (hp : ∀ j, p j ≤ j) (j v : Nat)
    (hv : findP p j = v) (hvj : v ≤ j) :
    ∀ k, findP (updateP p j v) k = findP p k := by
  have hvr : p v = v := by rw [← hv]; exact parent_findP p hp j
  have hp' : ∀ i, updateP p j v i ≤ i := updateP_le p hp j v hvj
  intro k
  induction k using Nat.strong_induction_on with
  | _ k ih =>
    by_cases hkj : k = j
    · rw [hkj]
      by_cases hvk : v = j
      · have h1 : updateP p j v j = v := by simp [updateP]
        have h2 : findP (updateP p j v) j = j :=
          findP_of_root _ _ (by rw [h1, hvk])
        rw [h2, hv, hvk]
      · have h1 : updateP p j v j = v := by simp [updateP]
        have h2 := findP_parent (updateP p j v) hp' j
        rw [h1] at h2
        have h3 : updateP p j v v = v := by simp [updateP, hvk, hvr]
        rw [← h2, findP_of_root _ _ h3, hv]
    · have hk : updateP p j v k = p k := by simp [updateP, hkj]
      by_cases hroot : p k = k
      · rw [findP_of_root _ _ (by rw [hk, hroot]), findP_of_root _ _ hroot]
      · have hlt : p k < k := Nat.lt_of_le_of_ne (hp k) hroot
        have e1 : findP (updateP p j v) k = findP (updateP p j v) (p k) := by
          conv_lhs => rw [← findP_parent _ hp' k, hk]
        rw [e1, ih (p k) hlt, findP_parent _ hp k]

/-! ## Behaviour of `unite` -/

theorem initD_wf : initD.Wf := fun i => Nat.le_refl i

theorem find_initD (i : Nat) : initD.find i = i :=
  findP_of_root _ i rfl

theorem unite_of_find_eq (d : DSU) (a b : Nat) (h1 : d.find a = d.find b) :
    d.unite a b = d := by
  simp [DSU.unite, h1]

theorem unite_lt (d : DSU) (a b : Nat) (h2 : d.find a < d.find b) :
    d.unite a b = ⟨updateP d.parent (d.find b) (d.find a)⟩ := by
  have h1 : ¬ d.find a = d.find b := Nat.ne_of_lt h2
  simp [DSU.unite, h1, h2]

theorem unite_gt (d : DSU) (a b : Nat) (h2 : d.find b < d.find a) :
    d.unite a b = ⟨updateP d.parent (d.find a) (d.find b)⟩ := by
  have h1 : ¬ d.find a = d.find b := (Nat.ne_of_lt h2).symm
  have h3 : ¬ d.find a < d.find b := by omega
  simp [DSU.unite, h1, h3]

theorem unite_wf (d : DSU) (h : d.Wf) (a b : Nat) : (d.unite a b).Wf := by
  rcases Nat.lt_trichotomy (d.find a) (d.find b) with h2 | h1 | h2
  · rw [unite_lt d a b h2]
    exact updateP_le d.parent h _ _ (le_of_lt h2)
  · rw [unite_of_find_eq d a b h1]
    exact h
  · rw [unite_gt d a b h2]
    exact updateP_le d.parent h _ _ (le_of_lt h2)

/-- The master characterisation of `unite`: every element of either
merged set is remapped to the single surviving representative, and every
element of any other set keeps its representative. -/
theorem find_unite (d : DSU) (h : d.Wf) (a b k : Nat) :
    (d.unite a b).find k =
      if d.find k = d.find a ∨ d.find k = d.find b
      then min (d.find a) (d.find b) else d.find k := by
  rcases Nat.lt_trichotomy (d.find a) (d.find b) with h2 | h1 | h2
  · rw [unite_lt d a b h2]
    have hru := findP_update_root d.parent h (d.find b) (d.find a)
      (parent_findP d.parent h b) (parent_findP d.parent h a) h2
    have hmin : min (d.find a) (d.find b) = d.find a := min_eq_left (le_of_lt h2)
    show findP (updateP d.parent (d.find b) (d.find a)) k = _
    rw [hru k]
    show (if d.find k = d.find b then d.find a else d.find k) = _
    by_cases hk : d.find k = d.find b
    · rw [if_pos hk, if_pos (Or.inr hk), hmin]
    · rw [if_neg hk]
      by_cases hka : d.find k = d.find a
      · rw [if_pos (Or.inl hka), hmin, hka]
      · rw [if_neg (by tauto)]
  · rw [unite_of_find_eq d a b h1, h1, min_self]
    simp only [or_self]
    by_cases hk : d.find k = d.find b
    · rw [if_pos hk, hk]
    · rw [if_neg hk]
  · rw [unite_gt d a b h2]
    have hru := findP_update_root d.parent h (d.find a) (d.find b)
      (parent_findP d.parent h a) (parent_findP d.parent h b) h2
    have hmin : min (d.find a) (d.find b) = d.find b := min_eq_right (le_of_lt h2)
    show findP (updateP d.parent (d.find a) (d.find b)) k = _
    rw [hru k]
    show (if d.find k = d.find a then d.find b else d.find k) = _
    by_cases hk : d.find k = d.find a
    · rw [if_pos hk, if_pos (Or.inl hk), hmin]
    · rw [if_neg hk]
      by_cases hkb : d.find k = d.find b
      · rw [if_pos (Or.inr hkb), hmin, hkb]
      · rw [if_neg (by tauto)]

theorem unite_find_eq (d : DSU) (h : d.Wf) (a b : Nat) :
    (d.unite a b).find a = (d.unite a b).find b := by
  rw [find_unite d h a b a, find_unite d h a b b,
    if_pos (Or.inl rfl), if_pos (Or.inr rfl)]

theorem unite_preserves_eq (d : DSU) (h : d.Wf) (a b x y : Nat)
    (hxy : d.find x = d.find y) :
    (d.unite a b).find x = (d.unite a b).find y := by
  rw [find_unite d h a b x, find_unite d h a b y, hxy]

/-! ## Path compression preserves every representative -/

theorem findCAux_spec (p : Nat → Nat) (hp : ∀ j, p j ≤ j) :
    ∀ fuel i, i < fuel →
      (findCAux p fuel i).1 = findP p i ∧
      (∀ j, (findCAux p fuel i).2 j ≤ j) ∧
      (∀ k, findP ((findCAux p fuel i).2) k = findP p k) := by
  intro fuel
  induction fuel with
  | zero => intro i h; omega
  | succ f ih =>
    intro i hi
    by_cases hpi : p i = i
    · have he : findCAux p (f + 1) i = (i, p) := by
        simp [findCAux, hpi]
      rw [he]
      exact ⟨(findP_of_root p i hpi).symm, hp, fun k => rfl⟩
    · have hlt : p i < i := Nat.lt_of_le_of_ne (hp i) hpi
      obtain ⟨h1, h2, h3⟩ := ih (p i) (by omega)
      simp only [findCAux, if_neg hpi]
      have hr1 : (findCAux p f (p i)).1 = findP p i := by
        rw [h1]
        exact findP_parent p hp i
      have hfi : findP (findCAux p f (p i)).2 i = (findCAux p f (p i)).1 := by
        rw [h3 i, hr1]
      have hle : (findCAux p f (p i)).1 ≤ i := by
        rw [hr1]
        exact findP_le p hp i
      refine ⟨hr1, updateP_le _ h2 _ _ hle, fun k => ?_⟩
      rw [findP_update_shortcut (findCAux p f (p i)).2 h2 i
        (findCAux p f (p i)).1 hfi hle k, h3 k]

theorem findC_spec (d : DSU) (h : d.Wf) (i : Nat) :
    (d.findC i).1 = d.find i ∧ (d.findC i).2.Wf ∧
      ∀ k, (d.findC i).2.find k = d.find k := by
  obtain ⟨h1, h2, h3⟩ := findCAux_spec d.parent h (i + 1) i (Nat.lt_succ_self i)
  exact ⟨h1, h2, h3⟩

/-! ## Sequences of `unite` operations and the generated equivalence -/

theorem applyOps_wf (ops : List (Nat × Nat)) : (applyOps ops).Wf := by
  suffices h : ∀ (l : List (Nat × Nat)) (d : DSU), d.Wf →
      (l.foldl (fun d q => d.unite q.1 q.2) d).Wf by
    exact h ops initD initD_wf
  intro l
  induction l with
  | nil => intro d hd; exact hd
  | cons q l ih =>
    intro d hd
    exact ih (d.unite q.1 q.2) (unite_wf d hd q.1 q.2)

theorem applyOps_append (ops : List (Nat × Nat)) (q : Nat × Nat) :
    applyOps (ops ++ [q]) = (applyOps ops).unite q.1 q.2 := by
  simp [applyOps, List.foldl_append]

theorem mem_ops_find_eq (ops : List (Nat × Nat)) :
    ∀ a b, (a, b) ∈ ops → (applyOps ops).find a = (applyOps ops).find b := by
  induction ops using List.reverseRecOn with
  | nil => intro a b hmem; simp at hmem
  | append_singleton ops q ih =>
    intro a b hmem
    rw [applyOps_append]
    rcases List.mem_append.mp hmem with hold | hnew
    · exact unite_preserves_eq _ (applyOps_wf ops) _ _ _ _ (ih a b hold)
    · have hq : (a, b) = q := by simpa using hnew
      rw [← hq]
      exact unite_find_eq _ (applyOps_wf ops) a b

theorem eqvGen_find_eq (ops : List (Nat × Nat)) (x y : Nat)
    (h : Relation.EqvGen (fun u v => (u, v) ∈ ops) x y) :
    (applyOps ops).find x = (applyOps ops).find y := by
  induction h with
  | rel u v huv => exact mem_ops_find_eq ops u v huv
  | refl u => rfl
  | symm u v _ ih => exact ih.symm
  | trans u v w _ _ ih1 ih2 => exact ih1.trans ih2

theorem eqvGen_mono_append (ops : List (Nat × Nat)) (q : Nat × Nat)
    (x y : Nat) (h : Relation.EqvGen (fun u v => (u, v) ∈ ops) x y) :
    Relation.EqvGen (fun u v => (u, v) ∈ ops ++ [q]) x y := by
  refine Relation.EqvGen.mono ?_ h
  intro u v huv
  exact List.mem_append.mpr (Or.inl huv)

theorem find_eq_eqvGen (ops : List (Nat × Nat)) :
    ∀ x y, (applyOps ops).find x = (applyOps ops).find y →
      Relation.EqvGen (fun u v => (u, v) ∈ ops) x y := by
  induction ops using List.reverseRecOn with
  | nil =>
    intro x y h
    have h' : x = y := by
      rw [← find_initD x, ← find_initD y]
      exact h
    rw [h']
    exact Relation.EqvGen.refl y
  | append_singleton ops q ih =>
    intro x y h
    have hw : (applyOps ops).Wf := applyOps_wf ops
    rw [applyOps_append,
      find_unite _ hw q.1 q.2 x, find_unite _ hw q.1 q.2 y] at h
    have hq : Relation.EqvGen (fun u v => (u, v) ∈ ops ++ [q]) q.1 q.2 := by
      refine Relation.EqvGen.rel q.1 q.2 ?_
      simp
    have lift : ∀ u v, (applyOps ops).find u = (applyOps ops).find v →
        Relation.EqvGen (fun u v => (u, v) ∈ ops ++ [q]) u v :=
      fun u v huv => eqvGen_mono_append ops q u v (ih u v huv)
    set d := applyOps ops with hd
    by_cases hx : d.find x = d.find q.1 ∨ d.find x = d.find q.2
    · by_cases hy : d.find y = d.find q.1 ∨ d.find y = d.find q.2
      · rcases hx with hx1 | hx2
        · rcases hy with hy1 | hy2
          · exact lift x y (hx1.trans hy1.symm)
          · exact Relation.EqvGen.trans _ q.1 _ (lift x q.1 hx1)
              (Relation.EqvGen.trans _ q.2 _ hq
                (Relation.EqvGen.symm _ _ (lift y q.2 hy2)))
        · rcases hy with hy1 | hy2
          · exact Relation.EqvGen.trans _ q.2 _ (lift x q.2 hx2)
              (Relation.EqvGen.trans _ q.1 _
                (Relation.EqvGen.symm _ _ hq)
                (Relation.EqvGen.symm _ _ (lift y q.1 hy1)))
          · exact lift x y (hx2.trans hy2.symm)
      · rw [if_pos hx, if_neg hy] at h
        rcases Nat.le_total (d.find q.1) (d.find q.2) with hle | hle
        · rw [min_eq_left hle] at h
          exact absurd (Or.inl h.symm) hy
        · rw [min_eq_right hle] at h
          exact absurd (Or.inr h.symm) hy
    · by_cases hy : d.find y = d.find q.1 ∨ d.find y = d.find q.2
      · rw [if_neg hx, if_pos hy] at h
        rcases Nat.le_total (d.find q.1) (d.find q.2) with hle | hle
        · rw [min_eq_left hle] at h
          exact absurd (Or.inl h) hx
        · rw [min_eq_right hle] at h
          exact absurd (Or.inr h) hx
      · rw [if_neg hx, if_neg hy] at h
        exact lift x y h

/-! ## Elements not mentioned by any `unite` stay singletons -/

theorem mentions_spec (ops : List (Nat × Nat)) (x : Nat)
    (hx : mentions ops x = false) :
    ∀ q ∈ ops, q.1 ≠ x ∧ q.2 ≠ x := by
  intro q hq
  constructor
  · intro h1
    have h2 : mentions ops x = true := by
      unfold mentions
      rw [List.any_eq_true]
      exact ⟨q, hq, by simp [h1]⟩
    rw [hx] at h2
    exact Bool.false_ne_true h2
  · intro h1
    have h2 : mentions ops x = true := by
      unfold mentions
      rw [List.any_eq_true]
      exact ⟨q, hq, by simp [h1]⟩
    rw [hx] at h2
    exact Bool.false_ne_true h2

theorem eqvGen_unmentioned (ops : List (Nat × Nat)) (x : Nat)
    (hx : mentions ops x = false) :
    ∀ u v, Relation.EqvGen (fun u v => (u, v) ∈ ops) u v → (u = x ↔ v = x) := by
  intro u v h
  induction h with
  | rel u v huv =>
    have hne := mentions_spec ops x hx (u, v) huv
    exact ⟨fun h1 => absurd h1 hne.1, fun h1 => absurd h1 hne.2⟩
  | refl u => exact Iff.rfl
  | symm u v _ ih => exact ih.symm
  | trans u v w _ _ ih1 ih2 => exact ih1.trans ih2

/-! ## The claims -/

/-- C1: for all elements `a` and `b`, after calling `unite(a, b)`,
`find(a) == find(b)`. -/
theorem unite_correct (d : DSU) (h : d.Wf) (a b : Nat) :
    (d.unite a b).find a = (d.unite a b).find b :=
  unite_find_eq d h a b

theorem unite_correct_witness :
    (initD.unite 0 1).find 0 = (initD.unite 0 1).find 1 :=
  unite_correct initD (fun i => Nat.le_refl i) 0 1

/-- C2: two elements share a representative if and only if they are in
the same set, i.e. related by the equivalence generated by the `unite`
calls performed so far; the equivalence holds after every operation
sequence built from construction and `unite`, and the path-compressing
`find` returns that representative while preserving every element's
representative. -/
theorem find_eq_iff_sameSet (ops : List (Nat × Nat)) (x y : Nat) :
    ((applyOps ops).find x = (applyOps ops).find y ↔
      Relation.EqvGen (fun u v => (u, v) ∈ ops) x y) ∧
    ((applyOps ops).findC x).1 = (applyOps ops).find x ∧
    ∀ k, (((applyOps ops).findC x).2).find k = (applyOps ops).find k := by
  obtain ⟨h1, _, h3⟩ := findC_spec (applyOps ops) (applyOps_wf ops) x
  exact ⟨⟨find_eq_eqvGen ops x y, eqvGen_find_eq ops x y⟩, h1, h3⟩

/-- C3: performing `unite(a, b)` and then `unite(b, c)` results in
`find(a) == find(b) == find(c)`. -/
theorem unite_transitive (d : DSU) (h : d.Wf) (a b c : Nat) :
    ((d.unite a b).unite b c).find a = ((d.unite a b).unite b c).find b ∧
    ((d.unite a b).unite b c).find b = ((d.unite a b).unite b c).find c := by
  have hw1 : (d.unite a b).Wf := unite_wf d h a b
  have hab : (d.unite a b).find a = (d.unite a b).find b := unite_find_eq d h a b
  exact ⟨unite_preserves_eq (d.unite a b) hw1 b c a b hab,
    unite_find_eq (d.unite a b) hw1 b c⟩

theorem unite_transitive_witness :
    (((initD.unite 0 1).unite 1 2).find 0 = ((initD.unite 0 1).unite 1 2).find 1) ∧
    (((initD.unite 0 1).unite 1 2).find 1 = ((initD.unite 0 1).unite 1 2).find 2) :=
  unite_transitive initD (fun i => Nat.le_refl i) 0 1 2

/-- C4: freshly constructed elements on which no `unite` has been
performed (elements not mentioned by any performed `unite`) have distinct
representatives. -/
theorem fresh_distinct (ops : List (Nat × Nat)) (x y : Nat) (hxy : x ≠ y)
    (hx : mentions ops x = false) (_hy : mentions ops y = false) :
    (applyOps ops).find x ≠ (applyOps ops).find y := by
  intro h
  have he := find_eq_eqvGen ops x y h
  have hyx := (eqvGen_unmentioned ops x hx x y he).mp rfl
  exact hxy hyx.symm

theorem fresh_distinct_witness :
    (applyOps [(2, 3)]).find 0 ≠ (applyOps [(2, 3)]).find 1 :=
  fresh_distinct [(2, 3)] 0 1 (by decide) (by decide) (by decide)

/-- C5: every element `c` whose representative before `unite(a, b)` was
`find(a)` or `find(b)` afterwards has the new shared representative
`find(a)`. -/
theorem unite_moves_members (d : DSU) (h : d.Wf) (a b c : Nat)
    (hc : d.find c = d.find a ∨ d.find c = d.find b) :
    (d.unite a b).find c = (d.unite a b).find a := by
  rw [find_unite d h a b c, find_unite d h a b a,
    if_pos hc, if_pos (Or.inl rfl)]

theorem unite_moves_members_witness :
    (initD.unite 0 1).find 1 = (initD.unite 0 1).find 0 :=
  unite_moves_members initD (fun i => Nat.le_refl i) 0 1 1 (Or.inr rfl)

/-- C6: uniting the pairs `{a,b}`, `{b,c}`, `{e,c}` in any order yields
all four elements in a single set with equal `find` results; the concrete
s1..s4 scenario ends with `find(s4) == find(s3) == find(s1) == find(s2)`. -/
theorem unite_order_indep (a b c e : Nat) (ops : List (Nat × Nat))
    (hperm : ops.Perm [(a, b), (b, c), (e, c)]) :
    (applyOps ops).find e = (applyOps ops).find c ∧
    (applyOps ops).find c = (applyOps ops).find a ∧
    (applyOps ops).find a = (applyOps ops).find b := by
  have hab : (a, b) ∈ ops := hperm.mem_iff.mpr (by simp)
  have hbc : (b, c) ∈ ops := hperm.mem_iff.mpr (by simp)
  have hec : (e, c) ∈ ops := hperm.mem_iff.mpr (by simp)
  have h1 := mem_ops_find_eq ops a b hab
  have h2 := mem_ops_find_eq ops b c hbc
  have h3 := mem_ops_find_eq ops e c hec
  exact ⟨h3, h2.symm.trans h1.symm, h1⟩

theorem unite_order_indep_witness :
    (applyOps [(0, 1), (1, 2), (3, 2)]).find 3 = (applyOps [(0, 1), (1, 2), (3, 2)]).find 2 ∧
    (applyOps [(0, 1), (1, 2), (3, 2)]).find 2 = (applyOps [(0, 1), (1, 2), (3, 2)]).find 0 ∧
    (applyOps [(0, 1), (1, 2), (3, 2)]).find 0 = (applyOps [(0, 1), (1, 2), (3, 2)]).find 1 :=
  unite_order_indep 0 1 2 3 [(0, 1), (1, 2), (3, 2)] (List.Perm.refl _)

/-- C7: uniting an element with itself, or uniting two elements already
in the same set, leaves the structure unchanged, and a second
`unite(a, b)` immediately after the first leaves every element's
representative unchanged. -/
theorem unite_idempotent (d : DSU) (h : d.Wf) (a b : Nat) :
    (d.unite a b).unite a b = d.unite a b ∧
    d.unite a a = d ∧
    (d.find a = d.find b → d.unite a b = d) ∧
    ∀ c, ((d.unite a b).unite a b).find c = (d.unite a b).find c := by
  have h1 : (d.unite a b).unite a b = d.unite a b :=
    unite_of_find_eq (d.unite a b) a b (unite_find_eq d h a b)
  exact ⟨h1, unite_of_find_eq d a a rfl, unite_of_find_eq d a b,
    fun c => by rw [h1]⟩

theorem unite_idempotent_witness :
    (initD.unite 0 1).unite 0 1 = initD.unite 0 1 ∧
    initD.unite 0 0 = initD ∧
    (initD.find 0 = initD.find 1 → initD.unite 0 1 = initD) ∧
    ∀ c, ((initD.unite 0 1).unite 0 1).find c = (initD.unite 0 1).find c :=
  unite_idempotent initD (fun i => Nat.le_refl i) 0 1

/-- C8: a freshly constructed element not mentioned by any performed
`unite` is its own representative and is the sole member of its set. -/
theorem fresh_is_own_representative (ops : List (Nat × Nat)) (a : Nat)
    (ha : mentions ops a = false) :
    (applyOps ops).find a = a ∧
    ∀ j, (applyOps ops).find j = (applyOps ops).find a → j = a := by
  constructor
  · have hr : (applyOps ops).find ((applyOps ops).find a) = (applyOps ops).find a :=
      findP_findP (applyOps ops).parent (applyOps_wf ops) a
    have he := find_eq_eqvGen ops ((applyOps ops).find a) a hr
    exact (eqvGen_unmentioned ops a ha _ a he).mpr rfl
  · intro j hj
    have he := find_eq_eqvGen ops j a hj
    exact (eqvGen_unmentioned ops a ha j a he).mpr rfl

theorem fresh_is_own_representative_witness :
    (applyOps [(2, 3)]).find 0 = 0 ∧
    ∀ j, (applyOps [(2, 3)]).find j = (applyOps [(2, 3)]).find 0 → j = 0 :=
  fresh_is_own_representative [(2, 3)] 0 (by decide)

/-- C9: no defined operation fails: `find` always returns an actual
representative (a parent-chain fixed point), and construction, `unite`
and the path-compressing `find` all preserve the forest invariant that
guarantees this, so every operation is total on valid states. -/
theorem operations_total (d : DSU) (h : d.Wf) (a b i : Nat) :
    d.parent (d.find i) = d.find i ∧
    (d.unite a b).Wf ∧
    ((d.findC i).2).Wf ∧
    initD.Wf := by
  obtain ⟨_, h2, _⟩ := findC_spec d h i
  exact ⟨parent_findP d.parent h i, unite_wf d h a b, h2, initD_wf⟩

theorem operations_total_witness :
    initD.parent (initD.find 2) = initD.find 2 ∧
    (initD.unite 0 1).Wf ∧
    ((initD.findC 2).2).Wf ∧
    initD.Wf :=
  operations_total initD (fun i => Nat.le_refl i) 0 1 2

/-- C10: every throw branch of `createdataset::test_Set` is unreachable:
the embedded test runs to completion and returns normally instead of
raising "Internal error in Set.". -/
theorem test_Set_ok : test_Set = Except.ok () := rfl

end ConnectedComponents
